import Mathlib

/-!
Shallow embedding of the whynot archive storage layer, translated from
src/lib.rs, src/bin/spider.rs and src/bin/web.rs.

Byte strings are lists of naturals.  The fjall ordered KV engine is
modelled as association lists kept sorted in byte-lexicographic key
order, so forward iteration is list order and reverse iteration is list
reversal.  Timestamps are `Int` (jiff `Timestamp::as_second` returns an
i64); the result of parsing an ISO-8601 string is modelled as
`Option Int`, `none` standing for an unparseable string.
`i64::to_be_bytes` is the big-endian encoding of the value reduced
modulo 2^64 (two's complement).
-/

namespace Whynot

abbrev Bytes := List Nat

/-- Byte-lexicographic strict order on keys, the order the fjall engine
iterates in: a strict proper leading segment sorts before its
extensions. -/
def byteLt : Bytes → Bytes → Bool
  | _, [] => false
  | [], _ :: _ => true
  | a :: as, b :: bs => if a < b then true else if a = b then byteLt as bs else false

/-- Big-endian bytes of `n`, width `w`, most significant byte first. -/
def beBytes : Nat → Nat → Bytes
  | 0, _ => []
  | w + 1, n => n / 256 ^ w % 256 :: beBytes w (n % 256 ^ w)

/-- Model of `i64::to_be_bytes` applied to `Timestamp::as_second`
(spider.rs line 170, lib.rs line 24): the two's-complement big-endian
encoding of the signed second count. -/
def toBe64 (t : Int) : Bytes := beBytes 8 (t % (2 ^ 64 : Int)).toNat

/-- Chronological-index key (spider.rs lines 172-174):
8 big-endian timestamp bytes followed by the raw id bytes. -/
def chronoKey (t : Int) (id : Bytes) : Bytes := toBe64 t ++ id

/-- Chronological-index key decoding (web.rs line 312, `&k[8..]`). -/
def decode_chrono_key (k : Bytes) : Bytes := List.drop 8 k

/-- Tag-index key body: `tag ++ 0x7C ++ be64(seconds) ++ id`
(lib.rs lines 26-33). -/
def tagKeyB (tp : Bytes) (ts : Int) (url : Bytes) : Bytes :=
  tp ++ 124 :: (toBe64 ts ++ url)

/-- Model of `tag_key` (lib.rs lines 22-34).  The display date argument
is the result of the ISO-8601 parse inside the function; the source
unwraps it, so an unparseable date is a panic, modelled as `none`. -/
def tag_key (tag_path website_url : Bytes) (display_date : Option Int) : Option Bytes :=
  display_date.map fun ts => tagKeyB tag_path ts website_url

/-! Data model.  A fetched feed item, restricted to the fields the
storage layer reads (spider.rs lines 164-190): `website_url` is the raw
`item["website_url"]` string, `publish` is the result of parsing
`item["first_publish_date"]` (`none` = unparseable, which the source
unwraps into a panic), `sections` are the `taxonomy.sections[].path`
strings.  The item itself stands for the serialized payload stored in
the content partition. -/

structure RawItem where
  website_url : Bytes
  publish : Option Int
  sections : List Bytes
  deriving DecidableEq

/-- The three fjall partitions opened in spider.rs lines 57-66 and
web.rs lines 48-57: `whynot` (content), `index` (chronological),
`tags` (tag index).  Quantities are association lists sorted by
`byteLt`, matching the engine's iteration order. -/
structure State where
  db : List (Bytes × RawItem)
  index : List Bytes
  tags : List Bytes
  deriving DecidableEq

def emptyState : State := ⟨[], [], []⟩

/-- Point lookup in the content partition. -/
def lookup (m : List (Bytes × RawItem)) (k : Bytes) : Option RawItem :=
  match m with
  | [] => none
  | (x, v) :: xs => if k = x then some v else lookup xs k

/-- Ordered key insertion for the empty-valued partitions; on an equal
key the write is absorbed (last writer wins over an empty value). -/
def insKey (k : Bytes) : List Bytes → List Bytes
  | [] => [k]
  | x :: xs =>
    if byteLt k x then k :: x :: xs
    else if k = x then x :: xs
    else x :: insKey k xs

/-- Ordered insertion in the content partition; on an equal key the new
value replaces the old one (last writer wins). -/
def insKV (k : Bytes) (v : RawItem) : List (Bytes × RawItem) → List (Bytes × RawItem)
  | [] => [(k, v)]
  | (x, w) :: xs =>
    if byteLt k x then (k, v) :: (x, w) :: xs
    else if k = x then (k, v) :: xs
    else (x, w) :: insKV k v xs

/-- One staged write of a `keyspace.batch()`: content, chronological or
tag partition. -/
inductive W where
  | wdb (k : Bytes) (v : RawItem)
  | widx (k : Bytes)
  | wtag (k : Bytes)
  deriving DecidableEq

def applyW (st : State) : W → State
  | .wdb k v => { st with db := insKV k v st.db }
  | .widx k => { st with index := insKey k st.index }
  | .wtag k => { st with tags := insKey k st.tags }

/-- `batch.commit()` (spider.rs line 192): apply every staged write, in
staging order, as one atomic step. -/
def commit (st : State) (ws : List W) : State := ws.foldl applyW st

/-- Rust `str::trim_matches(c)`: strip the byte `c` from both ends. -/
def trimB (c : Nat) (xs : Bytes) : Bytes :=
  ((xs.dropWhile (fun b => b == c)).reverse.dropWhile (fun b => b == c)).reverse

/-- Stage the writes of one item (spider.rs lines 164-190).  The dedup
check consults the content partition as it was when the call started
(the batch is not yet committed).  A `none` publish date is the
`display_date.parse().unwrap()` panic at line 169, which aborts the
whole call before the commit. -/
def stageItem (db : List (Bytes × RawItem)) (item : RawItem) : Option (List W) :=
  let url := trimB 47 item.website_url
  if (lookup db url).isSome then some []
  else
    match item.publish with
    | none => none
    | some ts =>
      let tagWs := item.sections.map fun s => W.wtag (tagKeyB (trimB 47 s) ts url)
      some (tagWs ++ [W.wdb url item, W.widx (chronoKey ts url)])

/-- Accumulate the staged writes of `batch_dl` over a whole item list,
in item order; the first malformed publish date aborts everything. -/
def buildBatch (db : List (Bytes × RawItem)) : List RawItem → Option (List W)
  | [] => some []
  | it :: rest =>
    match stageItem db it with
    | none => none
    | some ws =>
      match buildBatch db rest with
      | none => none
      | some rest' => some (ws ++ rest')

/-- Number of items that pass the dedup gate, i.e. the items actually
staged by the call (the `count_inserted` of the specified contract). -/
def countNew (db : List (Bytes × RawItem)) (items : List RawItem) : Nat :=
  (items.filter fun it => !(lookup db (trimB 47 it.website_url)).isSome).length

/-- One ingestion call, `batch_dl` (spider.rs lines 95-193) restricted
to the storage layer: stage every new item, then commit the batch. -/
def ingest (st : State) (items : List RawItem) : Option (State × Nat) :=
  (buildBatch st.db items).map fun ws => (commit st ws, countNew st.db items)

/-- Byte-string test that `l` begins with `p`. -/
def startsWith : Bytes → Bytes → Bool
  | [], _ => true
  | _ :: _, [] => false
  | a :: as, b :: bs => a == b && startsWith as bs

/-- Chronological keys visited by the `list` loop for a page
(web.rs lines 303-310): reverse iteration, skip the first `page * 20`
positions, stop at position `page * 20 + 20`. -/
def globalScan (st : State) (page : Nat) : List Bytes :=
  ((st.index.reverse.enum.filter
      fun q => decide (page * 20 ≤ q.1 ∧ q.1 < page * 20 + 20)).map Prod.snd)

/-- The `list` handler (web.rs lines 295-327): resolve each visited
key's id through the content partition; an id with no content entry is
silently dropped by the `if let Some(v)` at line 313. -/
def list_global (st : State) (page : Nat) : List RawItem :=
  (globalScan st page).filterMap fun k => lookup st.db (decode_chrono_key k)

/-- Tag-index keys visited by the `page` listing loop
(web.rs lines 96-109): keys having `key ++ 0x7C` as leading bytes, in
reverse order, with the same skip/stop window. -/
def tagScan (st : State) (key : Bytes) (page : Nat) : List Bytes :=
  (((st.tags.filter (startsWith (key ++ [124]))).reverse.enum.filter
      fun q => decide (page * 20 ≤ q.1 ∧ q.1 < page * 20 + 20)).map Prod.snd)

/-- Tag-scoped listing branch of the `page` handler (web.rs lines
94-125): the id is the key sliced at `key.len() + 1 + 8` (line 111) and
resolved with `.unwrap().unwrap()` (line 112), so a missing content
entry is a panic, modelled as `none`. -/
def tagPage (st : State) (key : Bytes) (page : Nat) : Option (List RawItem) :=
  (tagScan st key page).mapM fun k => lookup st.db (List.drop (key.length + 1 + 8) k)

/-- Rust `str::split(c)` on byte strings: always yields at least one
(possibly empty) segment. -/
def splitB (c : Nat) : Bytes → List Bytes
  | [] => [[]]
  | x :: xs =>
    match splitB c xs with
    | [] => [[]]
    | y :: ys => if x = c then [] :: y :: ys else (x :: y) :: ys

/-- Model of `get_filename_from_url` (lib.rs lines 14-19):
`split('/').next_back()` then `split('?').next()`, each unwrap modelled
as the corresponding `Option`. -/
def get_filename_from_url (url : Bytes) : Option Bytes :=
  ((splitB 47 url).getLast?).bind fun s => (splitB 63 s).head?

/-- Structural precondition on the tag partition (spec section 3):
every tag key decomposes over a separator-free tag that the stored item
actually carries among its trimmed section paths. -/
def TagsWellFormed (st : State) : Prop :=
  ∀ k ∈ st.tags, ∃ tp t i pp, k = tagKeyB tp t i ∧ (124 : Nat) ∉ tp ∧
    lookup st.db i = some pp ∧ ∃ s, s ∈ pp.sections ∧ trimB 47 s = tp

/-! Concrete states used to evaluate the theorems. -/

/-- One well-formed item: id `a`, five seconds past the epoch, one
section path `x`. -/
def itemA : RawItem := { website_url := [97], publish := some 5, sections := [[120]] }

/-- The state holding exactly `itemA`, as committed by one ingestion
call from the empty state. -/
def stOne : State :=
  { db := [([97], itemA)]
    index := [chronoKey 5 [97]]
    tags := [tagKeyB [120] 5 [97]] }

/-- A state whose index and tag entries dangle: no content record. -/
def stDangle : State :=
  { db := []
    index := [chronoKey 5 [97]]
    tags := [tagKeyB [120] 5 [97]] }

/-- An item whose single section path contains the separator byte. -/
def itemBadTag : RawItem :=
  { website_url := [98], publish := some 0, sections := [[97, 124, 99]] }

/-- The state committed by ingesting `itemBadTag` from empty. -/
def stBadTag : State :=
  { db := [([98], itemBadTag)]
    index := [chronoKey 0 [98]]
    tags := [tagKeyB [97, 124, 99] 0 [98]] }

/-- A fresh item whose publish date fails to parse. -/
def itemBadTs : RawItem := { website_url := [99], publish := none, sections := [] }

/-- An item with `itemA`'s id but an unparseable publish date. -/
def itemDupBadTs : RawItem := { website_url := [97], publish := none, sections := [] }

/-- Twenty-five fresh items with strictly increasing timestamps. -/
def items25 : List RawItem :=
  (List.range 25).map fun i =>
    { website_url := [100 + i], publish := some (1 + (i : Int)), sections := [] }

/-- The state committed by ingesting the twenty-five items from empty. -/
def st25 : State := commit emptyState ((buildBatch emptyState.db items25).getD [])

/-! Key codec lemmas. -/

theorem beBytes_length (w n : Nat) : (beBytes w n).length = w := by
  induction w generalizing n with
  | zero => rfl
  | succ k ih => simp [beBytes, ih]

theorem toBe64_length (t : Int) : (toBe64 t).length = 8 := beBytes_length 8 _

/-- Equal-width big-endian encodings compare like the numbers they
encode. -/
theorem byteLt_beBytes_of_lt (w m n : Nat) (hmn : m < n) (hn : n < 256 ^ w) :
    byteLt (beBytes w m) (beBytes w n) = true := by
  induction w generalizing m n with
  | zero => omega
  | succ k ih =>
    have hnq : n / 256 ^ k < 256 := by
      have : n < 256 ^ k * 256 := by
        have := hn; rw [pow_succ] at this; omega
      exact Nat.div_lt_of_lt_mul this
    have hmq : m / 256 ^ k < 256 := by
      have : m < 256 ^ k * 256 := by
        have hm : m < 256 ^ (k + 1) := lt_trans hmn hn
        rw [pow_succ] at hm; omega
      exact Nat.div_lt_of_lt_mul this
    have hq : m / 256 ^ k ≤ n / 256 ^ k := Nat.div_le_div_right (le_of_lt hmn)
    simp only [beBytes, byteLt]
    rw [Nat.mod_eq_of_lt hmq, Nat.mod_eq_of_lt hnq]
    rcases lt_or_eq_of_le hq with hlt | heq
    · simp [hlt]
    · have hmr : m % 256 ^ k < n % 256 ^ k := by
        have em := Nat.div_add_mod m (256 ^ k)
        have en := Nat.div_add_mod n (256 ^ k)
        rw [heq] at em
        omega
      have hnr : n % 256 ^ k < 256 ^ k := Nat.mod_lt _ (Nat.pos_pow_of_pos k (by omega))
      simp [heq, ih _ _ hmr hnr]

/-- A strict comparison between equal-length keys survives appending
arbitrary suffixes to both. -/
theorem byteLt_append (as bs u v : Bytes) (hlen : as.length = bs.length)
    (h : byteLt as bs = true) : byteLt (as ++ u) (bs ++ v) = true := by
  induction as generalizing bs with
  | nil =>
    cases bs with
    | nil => simp [byteLt] at h
    | cons b bs => simp at hlen
  | cons a as ih =>
    cases bs with
    | nil => simp at hlen
    | cons b bs =>
      simp only [byteLt, List.cons_append] at h ⊢
      by_cases hab : a < b
      · simp [hab]
      · simp only [hab, if_false] at h ⊢
        by_cases heq : a = b
        · simp only [heq, if_true] at h ⊢
          exact ih bs (by simpa using hlen) h
        · simp [heq] at h

theorem toBe64_nonneg (t : Int) (h0 : 0 ≤ t) (h1 : t < 2 ^ 64) :
    toBe64 t = beBytes 8 t.toNat := by
  unfold toBe64
  rw [Int.emod_eq_of_lt h0 h1]

theorem decode_chronoKey_eq (t : Int) (id : Bytes) :
    decode_chrono_key (chronoKey t id) = id := by
  unfold decode_chrono_key chronoKey
  rw [show (8 : Nat) = (toBe64 t).length from (toBe64_length t).symm,
    List.drop_left]

theorem mem_insKey (k j : Bytes) (l : List Bytes) :
    j ∈ insKey k l ↔ j = k ∨ j ∈ l := by
  induction l with
  | nil => simp [insKey]
  | cons x xs ih =>
    simp only [insKey]
    by_cases h1 : byteLt k x = true
    · rw [if_pos h1]
      simp only [List.mem_cons]
    · rw [if_neg h1]
      by_cases h2 : k = x
      · subst h2
        rw [if_pos rfl]
        simp only [List.mem_cons]
        tauto
      · rw [if_neg h2]
        simp only [List.mem_cons, ih]
        tauto

theorem lookup_insKV (k j : Bytes) (v : RawItem) (m : List (Bytes × RawItem)) :
    lookup (insKV k v m) j = if j = k then some v else lookup m j := by
  induction m with
  | nil => simp [insKV, lookup]
  | cons xw xs ih =>
    obtain ⟨x, w⟩ := xw
    simp only [insKV]
    by_cases h1 : byteLt k x = true
    · simp [h1, lookup]
    · by_cases h2 : k = x
      · subst h2
        by_cases hj : j = k <;> simp [h1, lookup, hj]
      · by_cases hj : j = x
        · subst hj
          have hjk : ¬ j = k := fun hh => h2 hh.symm
          simp [h1, h2, lookup, hjk]
        · simp [h1, h2, lookup, hj, ih]

theorem commit_cons (st : State) (w : W) (ws : List W) :
    commit st (w :: ws) = commit (applyW st w) ws := rfl

theorem commit_index_mem (st : State) (ws : List W) (k : Bytes) :
    k ∈ (commit st ws).index ↔ k ∈ st.index ∨ W.widx k ∈ ws := by
  induction ws generalizing st with
  | nil => simp [commit]
  | cons w ws ih =>
    rw [commit_cons, ih]
    cases w with
    | wdb a v => simp [applyW]
    | widx a =>
      simp only [applyW, mem_insKey, List.mem_cons, W.widx.injEq]
      tauto
    | wtag a => simp [applyW]

theorem commit_tags_mem (st : State) (ws : List W) (k : Bytes) :
    k ∈ (commit st ws).tags ↔ k ∈ st.tags ∨ W.wtag k ∈ ws := by
  induction ws generalizing st with
  | nil => simp [commit]
  | cons w ws ih =>
    rw [commit_cons, ih]
    cases w with
    | wdb a v => simp [applyW]
    | widx a => simp [applyW]
    | wtag a =>
      simp only [applyW, mem_insKey, List.mem_cons, W.wtag.injEq]
      tauto

theorem commit_db_lookup (st : State) (ws : List W) (i : Bytes) (p : RawItem)
    (h : lookup (commit st ws).db i = some p) :
    lookup st.db i = some p ∨ W.wdb i p ∈ ws := by
  induction ws generalizing st with
  | nil => exact Or.inl h
  | cons w ws ih =>
    rw [commit_cons] at h
    rcases ih _ h with h2 | h2
    · cases w with
      | wdb a v =>
        simp only [applyW] at h2
        rw [lookup_insKV] at h2
        by_cases hi : i = a
        · subst hi
          simp only [if_true] at h2
          obtain rfl : v = p := by injection h2
          exact Or.inr (List.mem_cons_self _ _)
        · simp only [hi, if_false] at h2
          exact Or.inl h2
      | widx a => exact Or.inl h2
      | wtag a => exact Or.inl h2
    · exact Or.inr (List.mem_cons_of_mem _ h2)

theorem commit_db_isSome (st : State) (ws : List W) (i : Bytes)
    (h : (lookup st.db i).isSome = true) :
    (lookup (commit st ws).db i).isSome = true := by
  induction ws generalizing st with
  | nil => exact h
  | cons w ws ih =>
    rw [commit_cons]
    apply ih
    cases w with
    | wdb a v =>
      simp only [applyW]
      rw [lookup_insKV]
      by_cases hi : i = a <;> simp [hi, h]
    | widx a => exact h
    | wtag a => exact h

theorem commit_db_isSome_of_mem (st : State) (ws : List W) (i : Bytes) (p : RawItem)
    (h : W.wdb i p ∈ ws) : (lookup (commit st ws).db i).isSome = true := by
  induction ws generalizing st with
  | nil => simp at h
  | cons w ws ih =>
    rw [commit_cons]
    rcases List.mem_cons.mp h with he | hm
    · subst he
      apply commit_db_isSome
      simp only [applyW]
      rw [lookup_insKV]
      simp
    · exact ih (applyW st w) hm

/-! Cross-store atomicity invariant. -/

/-- Invariant tying the three partitions together: every stored id has
its chronological entry and one tag entry per trimmed section path;
every chronological key's sliced id resolves in the content partition;
every tag key decomposes as `tag ++ 0x7C ++ be64 ++ id` over an id that
resolves. -/
def Inv (st : State) : Prop :=
  (∀ i p, lookup st.db i = some p →
    ∃ t, p.publish = some t ∧ chronoKey t i ∈ st.index ∧
      ∀ s ∈ p.sections, tagKeyB (trimB 47 s) t i ∈ st.tags) ∧
  (∀ k, k ∈ st.index → (lookup st.db (decode_chrono_key k)).isSome = true) ∧
  (∀ k, k ∈ st.tags → ∃ tp t i, k = tagKeyB tp t i ∧ (lookup st.db i).isSome = true)

/-- A staged batch whose writes form complete triples: each content
write carries its chronological and tag writes, and each index write
points back at a content write in the same batch. -/
def goodBatch (ws : List W) : Prop :=
  (∀ i p, W.wdb i p ∈ ws → ∃ t, p.publish = some t ∧ W.widx (chronoKey t i) ∈ ws ∧
    ∀ s ∈ p.sections, W.wtag (tagKeyB (trimB 47 s) t i) ∈ ws) ∧
  (∀ k, W.widx k ∈ ws → ∃ p, W.wdb (decode_chrono_key k) p ∈ ws) ∧
  (∀ k, W.wtag k ∈ ws → ∃ tp t i, k = tagKeyB tp t i ∧ ∃ p, W.wdb i p ∈ ws)

theorem goodBatch_nil : goodBatch [] := by
  refine ⟨?_, ?_, ?_⟩ <;> intros <;> simp_all

theorem goodBatch_append (a b : List W) (ha : goodBatch a) (hb : goodBatch b) :
    goodBatch (a ++ b) := by
  obtain ⟨ha1, ha2, ha3⟩ := ha
  obtain ⟨hb1, hb2, hb3⟩ := hb
  refine ⟨?_, ?_, ?_⟩
  · intro i p hip
    rcases List.mem_append.mp hip with h | h
    · obtain ⟨t, h1, h2, h3⟩ := ha1 i p h
      exact ⟨t, h1, List.mem_append.mpr (Or.inl h2),
        fun s hs => List.mem_append.mpr (Or.inl (h3 s hs))⟩
    · obtain ⟨t, h1, h2, h3⟩ := hb1 i p h
      exact ⟨t, h1, List.mem_append.mpr (Or.inr h2),
        fun s hs => List.mem_append.mpr (Or.inr (h3 s hs))⟩
  · intro k hk
    rcases List.mem_append.mp hk with h | h
    · obtain ⟨p, hp⟩ := ha2 k h
      exact ⟨p, List.mem_append.mpr (Or.inl hp)⟩
    · obtain ⟨p, hp⟩ := hb2 k h
      exact ⟨p, List.mem_append.mpr (Or.inr hp)⟩
  · intro k hk
    rcases List.mem_append.mp hk with h | h
    · obtain ⟨tp, t, i, he, p, hp⟩ := ha3 k h
      exact ⟨tp, t, i, he, p, List.mem_append.mpr (Or.inl hp)⟩
    · obtain ⟨tp, t, i, he, p, hp⟩ := hb3 k h
      exact ⟨tp, t, i, he, p, List.mem_append.mpr (Or.inr hp)⟩

theorem stageItem_good (db : List (Bytes × RawItem)) (it : RawItem) (ws : List W)
    (h : stageItem db it = some ws) : goodBatch ws := by
  simp only [stageItem] at h
  by_cases hc : (lookup db (trimB 47 it.website_url)).isSome = true
  · rw [if_pos hc] at h
    injection h with h
    subst h
    exact goodBatch_nil
  · rw [if_neg hc] at h
    cases hp : it.publish with
    | none => rw [hp] at h; exact absurd h (by simp)
    | some ts =>
      rw [hp] at h
      injection h with h
      subst h
      refine ⟨?_, ?_, ?_⟩
      · intro i p hip
        simp only [List.mem_append, List.mem_map, List.mem_cons,
          List.not_mem_nil, or_false] at hip
        rcases hip with ⟨s, hs, heq⟩ | heq | heq
        · exact absurd heq (by simp)
        · injection heq with h1 h2
          subst h1
          subst h2
          refine ⟨ts, hp, ?_, ?_⟩
          · exact List.mem_append.mpr (Or.inr (by simp))
          · intro s hs
            exact List.mem_append.mpr
              (Or.inl (List.mem_map.mpr ⟨s, hs, rfl⟩))
        · exact absurd heq (by simp)
      · intro k hk
        simp only [List.mem_append, List.mem_map, List.mem_cons,
          List.not_mem_nil, or_false] at hk
        rcases hk with ⟨s, hs, heq⟩ | heq | heq
        · exact absurd heq (by simp)
        · exact absurd heq (by simp)
        · injection heq with h1
          subst h1
          rw [decode_chronoKey_eq]
          exact ⟨it, List.mem_append.mpr (Or.inr (by simp))⟩
      · intro k hk
        simp only [List.mem_append, List.mem_map, List.mem_cons,
          List.not_mem_nil, or_false] at hk
        rcases hk with ⟨s, hs, heq⟩ | heq | heq
        · injection heq with h1
          exact ⟨trimB 47 s, ts, trimB 47 it.website_url, h1.symm,
            it, List.mem_append.mpr (Or.inr (by simp))⟩
        · exact absurd heq (by simp)
        · exact absurd heq (by simp)

theorem buildBatch_good (db : List (Bytes × RawItem)) (items : List RawItem)
    (ws : List W) (h : buildBatch db items = some ws) : goodBatch ws := by
  induction items generalizing ws with
  | nil =>
    simp only [buildBatch] at h
    injection h with h
    subst h
    exact goodBatch_nil
  | cons it rest ih =>
    simp only [buildBatch] at h
    split at h
    · exact absurd h (by simp)
    · rename_i w1 h1
      split at h
      · exact absurd h (by simp)
      · rename_i w2 h2
        injection h with h
        subst h
        exact goodBatch_append _ _ (stageItem_good db it w1 h1) (ih w2 h2)

theorem commit_good_inv (st : State) (ws : List W)
    (hg : goodBatch ws) (hi : Inv st) : Inv (commit st ws) := by
  obtain ⟨hg1, hg2, hg3⟩ := hg
  obtain ⟨hi1, hi2, hi3⟩ := hi
  refine ⟨?_, ?_, ?_⟩
  · intro i p hp
    rcases commit_db_lookup st ws i p hp with h | h
    · obtain ⟨t, h1, h2, h3⟩ := hi1 i p h
      exact ⟨t, h1, (commit_index_mem st ws _).mpr (Or.inl h2),
        fun s hs => (commit_tags_mem st ws _).mpr (Or.inl (h3 s hs))⟩
    · obtain ⟨t, h1, h2, h3⟩ := hg1 i p h
      exact ⟨t, h1, (commit_index_mem st ws _).mpr (Or.inr h2),
        fun s hs => (commit_tags_mem st ws _).mpr (Or.inr (h3 s hs))⟩
  · intro k hk
    rcases (commit_index_mem st ws k).mp hk with h | h
    · exact commit_db_isSome st ws _ (hi2 k h)
    · obtain ⟨p, hp⟩ := hg2 k h
      exact commit_db_isSome_of_mem st ws _ p hp
  · intro k hk
    rcases (commit_tags_mem st ws k).mp hk with h | h
    · obtain ⟨tp, t, i, he, hs⟩ := hi3 k h
      exact ⟨tp, t, i, he, commit_db_isSome st ws _ hs⟩
    · obtain ⟨tp, t, i, he, p, hp⟩ := hg3 k h
      exact ⟨tp, t, i, he, commit_db_isSome_of_mem st ws _ p hp⟩

theorem buildBatch_mem (db : List (Bytes × RawItem)) (items : List RawItem)
    (ws : List W) (h : buildBatch db items = some ws)
    (it : RawItem) (hit : it ∈ items) :
    ∃ wsi, stageItem db it = some wsi ∧ ∀ x ∈ wsi, x ∈ ws := by
  induction items generalizing ws with
  | nil => simp at hit
  | cons a rest ih =>
    simp only [buildBatch] at h
    split at h
    · exact absurd h (by simp)
    · rename_i w1 h1
      split at h
      · exact absurd h (by simp)
      · rename_i w2 h2
        injection h with h
        subst h
        rcases List.mem_cons.mp hit with rfl | hm
        · exact ⟨w1, h1, fun x hx => List.mem_append.mpr (Or.inl hx)⟩
        · obtain ⟨wsi, ha, hsub⟩ := ih w2 h2 hm
          exact ⟨wsi, ha, fun x hx => List.mem_append.mpr (Or.inr (hsub x hx))⟩

theorem buildBatch_all_dup (db : List (Bytes × RawItem)) (items : List RawItem)
    (h : ∀ it ∈ items, (lookup db (trimB 47 it.website_url)).isSome = true) :
    buildBatch db items = some [] := by
  induction items with
  | nil => rfl
  | cons it rest ih =>
    have h1 : stageItem db it = some [] := by
      simp only [stageItem]
      rw [if_pos (h it (List.mem_cons_self _ _))]
    simp only [buildBatch, h1, ih fun x hx => h x (List.mem_cons_of_mem _ hx),
      List.nil_append]

theorem countNew_all_dup (db : List (Bytes × RawItem)) (items : List RawItem)
    (h : ∀ it ∈ items, (lookup db (trimB 47 it.website_url)).isSome = true) :
    countNew db items = 0 := by
  unfold countNew
  rw [List.length_eq_zero, List.filter_eq_nil_iff]
  intro it hit
  simp [h it hit]

theorem ingest_all_dup (st : State) (items : List RawItem)
    (h : ∀ it ∈ items, (lookup st.db (trimB 47 it.website_url)).isSome = true) :
    ingest st items = some (st, 0) := by
  unfold ingest
  rw [buildBatch_all_dup st.db items h]
  simp [commit, countNew_all_dup st.db items h]

theorem ingest_db_present (st st1 : State) (items : List RawItem) (n : Nat)
    (h : ingest st items = some (st1, n)) (it : RawItem) (hit : it ∈ items) :
    (lookup st1.db (trimB 47 it.website_url)).isSome = true := by
  unfold ingest at h
  cases hb : buildBatch st.db items with
  | none => rw [hb] at h; exact absurd h (by simp)
  | some ws =>
    rw [hb] at h
    simp only [Option.map_some'] at h
    injection h with h
    have hst : commit st ws = st1 := congrArg Prod.fst h
    subst hst
    obtain ⟨wsi, hsi, hsub⟩ := buildBatch_mem st.db items ws hb it hit
    by_cases hc : (lookup st.db (trimB 47 it.website_url)).isSome = true
    · exact commit_db_isSome st ws _ hc
    · simp only [stageItem] at hsi
      rw [if_neg hc] at hsi
      split at hsi
      · exact absurd hsi (by simp)
      · rename_i ts hts
        injection hsi with hsi
        subst hsi
        exact commit_db_isSome_of_mem st ws _ it
          (hsub _ (List.mem_append.mpr (Or.inr (by simp))))

/-! Pagination window lemmas: the skip/stop loop over an enumerated
reverse iterator picks exactly one drop/take window. -/

theorem enumFrom_filter_ge {α : Type} (n m : Nat) (xs : List α) (k : Nat)
    (hk : m ≤ k) :
    (List.enumFrom k xs).filter (fun q => decide (n ≤ q.1 ∧ q.1 < m)) = [] := by
  induction xs generalizing k with
  | nil => rfl
  | cons x xs ih =>
    simp only [List.enumFrom, List.filter_cons]
    have hc : ¬(n ≤ k ∧ k < m) := by omega
    simp only [decide_eq_false hc, Bool.false_eq_true, if_false]
    exact ih (k + 1) (by omega)

theorem enumFrom_window {α : Type} (n m : Nat) (xs : List α) (k : Nat) :
    ((List.enumFrom k xs).filter (fun q => decide (n ≤ q.1 ∧ q.1 < m))).map Prod.snd
      = (xs.drop (n - k)).take (m - max n k) := by
  induction xs generalizing k with
  | nil => simp
  | cons x xs ih =>
    simp only [List.enumFrom, List.filter_cons]
    by_cases h1 : n ≤ k ∧ k < m
    · rw [if_pos (decide_eq_true h1)]
      rw [List.map_cons, ih (k + 1)]
      have e1 : n - k = 0 := by omega
      have e2 : n - (k + 1) = 0 := by omega
      have e3 : max n k = k := by omega
      have e4 : max n (k + 1) = k + 1 := by omega
      have e5 : m - k = (m - (k + 1)) + 1 := by omega
      rw [e1, e2, e3, e4, List.drop_zero, List.drop_zero, e5, List.take_succ_cons]
    · rw [if_neg (by simpa using h1)]
      by_cases h2 : m ≤ k
      · rw [enumFrom_filter_ge n m xs (k + 1) (by omega)]
        have e1 : m - max n k = 0 := by omega
        rw [e1, List.take_zero]
        rfl
      · have hkn : k < n := by omega
        rw [ih (k + 1)]
        have e1 : n - k = (n - (k + 1)) + 1 := by omega
        have e2 : max n k = n := by omega
        have e3 : max n (k + 1) = n := by omega
        rw [e1, e2, e3, List.drop_succ_cons]

theorem globalScan_eq (st : State) (p : Nat) :
    globalScan st p = (st.index.reverse.drop (p * 20)).take 20 := by
  unfold globalScan
  rw [show st.index.reverse.enum = List.enumFrom 0 st.index.reverse from rfl,
    enumFrom_window]
  have e1 : p * 20 - 0 = p * 20 := by omega
  have e2 : p * 20 + 20 - max (p * 20) 0 = 20 := by omega
  rw [e1, e2]

theorem tagScan_eq (st : State) (key : Bytes) (p : Nat) :
    tagScan st key p
      = ((st.tags.filter (startsWith (key ++ [124]))).reverse.drop (p * 20)).take 20 := by
  unfold tagScan
  rw [show (st.tags.filter (startsWith (key ++ [124]))).reverse.enum
      = List.enumFrom 0 (st.tags.filter (startsWith (key ++ [124]))).reverse from rfl,
    enumFrom_window]
  have e1 : p * 20 - 0 = p * 20 := by omega
  have e2 : p * 20 + 20 - max (p * 20) 0 = 20 := by omega
  rw [e1, e2]

theorem globalScan_mem (st : State) (p : Nat) (k : Bytes)
    (hk : k ∈ globalScan st p) : k ∈ st.index := by
  rw [globalScan_eq] at hk
  exact List.mem_reverse.mp (List.drop_subset _ _ (List.take_subset _ _ hk))

theorem tagScan_mem (st : State) (key : Bytes) (p : Nat) (k : Bytes)
    (hk : k ∈ tagScan st key p) :
    k ∈ st.tags ∧ startsWith (key ++ [124]) k = true := by
  rw [tagScan_eq] at hk
  have h1 := List.mem_reverse.mp (List.drop_subset _ _ (List.take_subset _ _ hk))
  exact ⟨(List.mem_filter.mp h1).1, (List.mem_filter.mp h1).2⟩

theorem filterMap_take_of_isSome {α β : Type} (f : α → Option β) (l : List α)
    (h : ∀ x ∈ l, (f x).isSome = true) (m : Nat) :
    (l.take m).filterMap f = (l.filterMap f).take m := by
  induction l generalizing m with
  | nil => simp
  | cons x xs ih =>
    cases m with
    | zero => simp
    | succ m2 =>
      obtain ⟨y, hy⟩ := Option.isSome_iff_exists.mp (h x (by simp))
      rw [List.take_succ_cons, List.filterMap_cons, List.filterMap_cons, hy,
        List.take_succ_cons, ih (fun z hz => h z (by simp [hz])) m2]

theorem filterMap_drop_of_isSome {α β : Type} (f : α → Option β) (l : List α)
    (h : ∀ x ∈ l, (f x).isSome = true) (m : Nat) :
    (l.drop m).filterMap f = (l.filterMap f).drop m := by
  induction l generalizing m with
  | nil => simp
  | cons x xs ih =>
    cases m with
    | zero => simp
    | succ m2 =>
      obtain ⟨y, hy⟩ := Option.isSome_iff_exists.mp (h x (by simp))
      rw [List.drop_succ_cons, List.filterMap_cons, hy, List.drop_succ_cons,
        ih (fun z hz => h z (by simp [hz])) m2]

theorem mapM_none_of_mem {α β : Type} (f : α → Option β) (l : List α) (x : α)
    (hx : x ∈ l) (hf : f x = none) : l.mapM f = none := by
  induction l with
  | nil => simp at hx
  | cons a as ih =>
    rw [List.mapM_cons]
    rcases List.mem_cons.mp hx with rfl | hm
    · rw [hf]; rfl
    · cases hfa : f a with
      | none => rfl
      | some y => rw [ih hm]; rfl

theorem mapM_some_of_isSome {α β : Type} (f : α → Option β) (l : List α)
    (h : ∀ x ∈ l, (f x).isSome = true) :
    ∃ rs, l.mapM f = some rs ∧ rs.length = l.length ∧
      ∀ r ∈ rs, ∃ x, x ∈ l ∧ f x = some r := by
  induction l with
  | nil => exact ⟨[], rfl, by simp, by simp⟩
  | cons a as ih =>
    obtain ⟨y, hy⟩ := Option.isSome_iff_exists.mp (h a (by simp))
    obtain ⟨rs, h1, h2, h3⟩ := ih fun x hx => h x (by simp [hx])
    refine ⟨y :: rs, ?_, by simp [h2], ?_⟩
    · rw [List.mapM_cons, hy, h1]; rfl
    · intro r hr
      rcases List.mem_cons.mp hr with rfl | hm
      · exact ⟨a, by simp, hy⟩
      · obtain ⟨x, hx1, hx2⟩ := h3 r hm
        exact ⟨x, by simp [hx1], hx2⟩

/-- Two separator-free tags followed by the separator agree whenever
one's separated form starts the other's key. -/
theorem startsWith_sep_unique (tag tp rest : Bytes)
    (htag : 124 ∉ tag) (htp : 124 ∉ tp)
    (h : startsWith (tag ++ [124]) (tp ++ 124 :: rest) = true) : tag = tp := by
  induction tag generalizing tp with
  | nil =>
    cases tp with
    | nil => rfl
    | cons b bs =>
      simp only [List.nil_append, List.cons_append, startsWith,
        Bool.and_eq_true, beq_iff_eq] at h
      exact absurd (h.1 ▸ List.mem_cons_self _ _) htp
  | cons a as ih =>
    cases tp with
    | nil =>
      simp only [List.cons_append, List.nil_append, startsWith,
        Bool.and_eq_true, beq_iff_eq] at h
      refine absurd ?_ htag
      rw [h.1]
      exact List.mem_cons_self _ _
    | cons b bs =>
      simp only [List.cons_append, startsWith, Bool.and_eq_true, beq_iff_eq] at h
      obtain ⟨rfl, h2⟩ := h
      rw [ih bs (fun hm => htag (List.mem_cons_of_mem _ hm))
        (fun hm => htp (List.mem_cons_of_mem _ hm)) h2]

/-! Lemmas about split on a byte, for `get_filename_from_url`. -/

theorem splitB_ne_nil (c : Nat) (xs : Bytes) : splitB c xs ≠ [] := by
  cases xs with
  | nil => simp [splitB]
  | cons x xs =>
    simp only [splitB]
    cases splitB c xs with
    | nil => simp
    | cons y ys =>
      dsimp only
      by_cases hx : x = c
      · rw [if_pos hx]; simp
      · rw [if_neg hx]; simp

theorem splitB_head (c : Nat) (xs : Bytes) :
    (splitB c xs).head? = some (xs.takeWhile fun b => !(b == c)) := by
  induction xs with
  | nil => rfl
  | cons x xs ih =>
    simp only [splitB]
    cases hs : splitB c xs with
    | nil => exact absurd hs (splitB_ne_nil c xs)
    | cons y ys =>
      dsimp only
      rw [hs] at ih
      simp only [List.head?_cons, Option.some.injEq] at ih
      by_cases hx : x = c
      · subst hx
        rw [if_pos rfl, List.takeWhile_cons]
        simp
      · rw [if_neg hx, List.takeWhile_cons]
        have hb : (!(x == c)) = true := by simp [hx]
        rw [hb, if_pos rfl]
        simp [ih]

theorem takeWhile_append_all {α : Type} (p : α → Bool) (l r : List α)
    (h : ∀ e ∈ l, p e = true) :
    (l ++ r).takeWhile p = l ++ r.takeWhile p := by
  induction l with
  | nil => simp
  | cons a as ih =>
    rw [List.cons_append, List.takeWhile_cons, if_pos (h a (by simp)),
      List.cons_append, ih fun e he => h e (by simp [he])]

theorem takeWhile_append_left {α : Type} (p : α → Bool) (l r : List α) (e : α)
    (he : e ∈ l) (hpe : p e = false) :
    (l ++ r).takeWhile p = l.takeWhile p := by
  induction l with
  | nil => simp at he
  | cons a as ih =>
    rw [List.cons_append, List.takeWhile_cons, List.takeWhile_cons]
    by_cases hpa : p a = true
    · rw [if_pos hpa, if_pos hpa]
      rcases List.mem_cons.mp he with rfl | hm
      · rw [hpa] at hpe; exact absurd hpe (by simp)
      · rw [ih hm]
    · rw [if_neg hpa, if_neg hpa]

theorem splitB_no_sep (c : Nat) (xs : Bytes) (h : c ∉ xs) : splitB c xs = [xs] := by
  induction xs with
  | nil => rfl
  | cons x xs ih =>
    have hx : ¬ x = c := fun he => h (by rw [he]; exact List.mem_cons_self _ _)
    have h2 : c ∉ xs := fun hm => h (List.mem_cons_of_mem _ hm)
    simp only [splitB, ih h2]
    rw [if_neg hx]

theorem splitB_two_of_mem (c : Nat) (xs : Bytes) (h : c ∈ xs) :
    2 ≤ (splitB c xs).length := by
  induction xs with
  | nil => simp at h
  | cons x xs ih =>
    simp only [splitB]
    cases hs : splitB c xs with
    | nil => exact absurd hs (splitB_ne_nil c xs)
    | cons y ys =>
      dsimp only
      by_cases hx : x = c
      · rw [if_pos hx]; simp
      · rw [if_neg hx]
        rcases List.mem_cons.mp h with he | hm
        · exact absurd he.symm hx
        · have h2 := ih hm
          rw [hs] at h2
          simpa using h2

theorem splitB_getLast (c : Nat) (xs : Bytes) :
    (splitB c xs).getLast?
      = some ((xs.reverse.takeWhile fun b => !(b == c)).reverse) := by
  induction xs with
  | nil => rfl
  | cons x xs ih =>
    by_cases hc : c ∈ xs
    · have hrhs : ((x :: xs).reverse.takeWhile fun b => !(b == c))
          = (xs.reverse.takeWhile fun b => !(b == c)) := by
        rw [List.reverse_cons]
        exact takeWhile_append_left _ _ _ c (by simpa using hc) (by simp)
      rw [hrhs]
      simp only [splitB]
      cases hs : splitB c xs with
      | nil => exact absurd hs (splitB_ne_nil c xs)
      | cons y ys =>
        dsimp only
        have hlen := splitB_two_of_mem c xs hc
        rw [hs] at ih hlen
        cases ys with
        | nil => simp at hlen
        | cons z zs =>
          by_cases hx : x = c
          · rw [if_pos hx, List.getLast?_cons_cons]
            exact ih
          · rw [if_neg hx, List.getLast?_cons_cons]
            rw [List.getLast?_cons_cons] at ih
            exact ih
    · have hall : ∀ e ∈ xs.reverse, (!(e == c)) = true := by
        intro e he
        have hme : e ∈ xs := List.mem_reverse.mp he
        have : ¬ e = c := fun hec => hc (hec ▸ hme)
        simp [this]
      by_cases hx : x = c
      · subst hx
        simp only [splitB, splitB_no_sep x xs hc]
        rw [List.reverse_cons, takeWhile_append_all _ _ _ hall]
        have h1 : (List.takeWhile (fun b => !(b == x)) [x]) = [] := by
          simp [List.takeWhile_cons]
        rw [h1, List.append_nil, List.reverse_reverse]
        simp
      · have hcx : c ∉ x :: xs := by
          intro hm
          rcases List.mem_cons.mp hm with he | hm2
          · exact hx he.symm
          · exact hc hm2
        rw [splitB_no_sep c (x :: xs) hcx, List.reverse_cons,
          takeWhile_append_all _ _ _ hall]
        have h1 : (List.takeWhile (fun b => !(b == c)) [x]) = [x] := by
          simp [List.takeWhile_cons, hx]
        rw [h1]
        simp

theorem tagKeyB_drop (tp : Bytes) (t : Int) (i : Bytes) :
    List.drop (tp.length + 1 + 8) (tagKeyB tp t i) = i := by
  unfold tagKeyB
  rw [show tp ++ 124 :: (toBe64 t ++ i) = (tp ++ 124 :: toBe64 t) ++ i by simp,
    show tp.length + 1 + 8 = (tp ++ 124 :: toBe64 t).length by
      simp only [List.length_append, List.length_cons, toBe64_length],
    List.drop_left]

theorem Inv_empty : Inv emptyState := by
  refine ⟨?_, ?_, ?_⟩
  · intro i p hp
    simp [emptyState, lookup] at hp
  · intro k hk
    simp [emptyState] at hk
  · intro k hk
    simp [emptyState] at hk

/-! Claim theorems. -/

/-- C1: cross-store atomicity invariant — after any completed ingestion
call, an id is in the content store exactly together with its
chronological entry and one tag entry per tag of the stored item; the
call stages all writes in one batch and commits them together, so the
invariant is preserved from any state satisfying it. -/
theorem ingest_atomic_invariant (st : State) (items : List RawItem) (st2 : State)
    (n : Nat) (hinv : Inv st) (h : ingest st items = some (st2, n)) : Inv st2 := by
  unfold ingest at h
  cases hb : buildBatch st.db items with
  | none => rw [hb] at h; exact absurd h (by simp)
  | some ws =>
    rw [hb] at h
    simp only [Option.map_some'] at h
    injection h with h
    have hst : commit st ws = st2 := congrArg Prod.fst h
    subst hst
    exact commit_good_inv st ws (buildBatch_good st.db items ws hb) hinv

theorem ingest_atomic_invariant_witness : Inv stOne :=
  ingest_atomic_invariant emptyState [itemA] stOne 1 Inv_empty (by decide)

/-- C2 (amended): chronological-key monotonicity holds for publish
times at or after the Unix epoch — for nonnegative seconds, a strictly
smaller timestamp gives a strictly byte-lexicographically smaller
chronological key, whatever the two distinct ids are. -/
theorem chronoKey_monotone (ta tb : Int) (ida idb : Bytes)
    (h0 : 0 ≤ ta) (h1 : ta < tb) (h2 : tb < 2 ^ 63) :
    byteLt (chronoKey ta ida) (chronoKey tb idb) = true := by
  unfold chronoKey
  have h0b : 0 ≤ tb := le_trans h0 (le_of_lt h1)
  have h64 : (2 : Int) ^ 63 < 2 ^ 64 := by norm_num
  rw [toBe64_nonneg ta h0 (lt_trans (lt_of_lt_of_le h1 (le_of_lt h2)) h64),
    toBe64_nonneg tb h0b (lt_trans h2 h64)]
  apply byteLt_append
  · rw [beBytes_length, beBytes_length]
  · apply byteLt_beBytes_of_lt
    · omega
    · have he : (256 : Nat) ^ 8 = 2 ^ 64 := by norm_num
      rw [he]
      omega

theorem chronoKey_monotone_witness :
    byteLt (chronoKey 0 [97]) (chronoKey 1 [98]) = true :=
  chronoKey_monotone 0 1 [97] [98] (by decide) (by decide) (by decide)

/-- C2 counterexample: for a pre-epoch (negative-second) parseable
timestamp the claim fails — minus one second sorts after zero seconds
because the two's-complement big-endian bytes of -1 are all 255. -/
theorem chronoKey_monotone_counterexample :
    ((-1 : Int) < 0) ∧ byteLt (chronoKey (-1) [97]) (chronoKey 0 [98]) = false := by
  decide

/-- C3: chronological key round-trip — slicing off the first 8 bytes of
an encoded key returns exactly the id bytes, for every timestamp and
every id. -/
theorem chrono_roundtrip (t : Int) (id : Bytes) :
    decode_chrono_key (chronoKey t id) = id := decode_chronoKey_eq t id

/-- C4: ingestion idempotence — a second run of ingest over the same
item sequence commits nothing: it returns the very same state with
count zero, because every item now fails the dedup gate. -/
theorem ingest_idempotent (st st1 : State) (items : List RawItem) (n : Nat)
    (h : ingest st items = some (st1, n)) : ingest st1 items = some (st1, 0) :=
  ingest_all_dup st1 items fun it hit => ingest_db_present st st1 items n h it hit

theorem ingest_idempotent_witness : ingest stOne [itemA] = some (stOne, 0) :=
  ingest_idempotent emptyState stOne [itemA] 1 (by decide)

/-- C5: global pagination — on a consistent, key-sorted state, page `p`
of the global listing is exactly the window of items ranked
`p*20+1 .. p*20+20` of the newest-first resolved sequence, holds at
most 20 items, and the scanned keys descend strictly. -/
theorem list_global_pages (st : State) (p : Nat)
    (hsorted : st.index.Pairwise fun a b => byteLt a b = true)
    (hcons : ∀ k ∈ st.index, (lookup st.db (decode_chrono_key k)).isSome = true) :
    list_global st p
      = ((st.index.reverse.filterMap fun k => lookup st.db (decode_chrono_key k)).drop
          (p * 20)).take 20
    ∧ (list_global st p).length ≤ 20
    ∧ ((globalScan st p).Pairwise fun a b => byteLt b a = true) := by
  have hrev : ∀ k ∈ st.index.reverse,
      (lookup st.db (decode_chrono_key k)).isSome = true :=
    fun k hk => hcons k (List.mem_reverse.mp hk)
  have h1 : list_global st p
      = ((st.index.reverse.drop (p * 20)).take 20).filterMap
          fun k => lookup st.db (decode_chrono_key k) := by
    unfold list_global
    rw [globalScan_eq]
  refine ⟨?_, ?_, ?_⟩
  · rw [h1,
      filterMap_take_of_isSome _ _
        (fun x hx => hrev x (List.drop_subset _ _ hx)) 20,
      filterMap_drop_of_isSome _ _ hrev (p * 20)]
  · rw [h1]
    refine le_trans (List.length_filterMap_le _ _) ?_
    rw [List.length_take]
    exact min_le_left _ _
  · rw [globalScan_eq]
    have hdesc : st.index.reverse.Pairwise fun a b => byteLt b a = true :=
      (List.pairwise_reverse).mpr hsorted
    exact List.Pairwise.sublist
      ((List.take_sublist _ _).trans (List.drop_sublist _ _)) hdesc

set_option maxRecDepth 4000 in
theorem list_global_pages_witness :
    (list_global st25 1
      = ((st25.index.reverse.filterMap fun k => lookup st25.db (decode_chrono_key k)).drop
          (1 * 20)).take 20
    ∧ (list_global st25 1).length ≤ 20
    ∧ ((globalScan st25 1).Pairwise fun a b => byteLt b a = true))
    ∧ (list_global st25 1).length = 5 ∧ (list_global st25 0).length = 20 :=
  ⟨list_global_pages st25 1 (by decide) (by decide), by decide, by decide⟩

/-- C6: tag-scoped pagination — for a separator-free tag over a
well-formed, key-sorted tag partition, the scan touches only keys
beginning with `tag ++ 0x7C`, the scanned keys descend strictly, at
most 20 items come back, and every returned item carries the queried
tag among its trimmed section paths; ids are recovered by slicing at
`tag length + 1 + 8`. -/
theorem list_by_tag_correct (st : State) (tag : Bytes) (p : Nat)
    (hsep : (124 : Nat) ∉ tag) (hwf : TagsWellFormed st)
    (hsorted : st.tags.Pairwise fun a b => byteLt a b = true) :
    (∀ k ∈ tagScan st tag p, startsWith (tag ++ [124]) k = true)
    ∧ ((tagScan st tag p).Pairwise fun a b => byteLt b a = true)
    ∧ ∃ items, tagPage st tag p = some items ∧ items.length ≤ 20
        ∧ ∀ it ∈ items, ∃ s, s ∈ it.sections ∧ trimB 47 s = tag := by
  have hres : ∀ k ∈ tagScan st tag p,
      ∃ pp, lookup st.db (List.drop (tag.length + 1 + 8) k) = some pp
        ∧ ∃ s, s ∈ pp.sections ∧ trimB 47 s = tag := by
    intro k hk
    obtain ⟨hmem, hsw⟩ := tagScan_mem st tag p k hk
    obtain ⟨tp, t, i, pp, hkeq, hnot, hlook, s, hs1, hs2⟩ := hwf k hmem
    have htag_eq : tag = tp := by
      apply startsWith_sep_unique tag tp (toBe64 t ++ i) hsep hnot
      rw [hkeq] at hsw
      simpa [tagKeyB] using hsw
    subst htag_eq
    refine ⟨pp, ?_, s, hs1, hs2⟩
    rw [hkeq, tagKeyB_drop]
    exact hlook
  refine ⟨fun k hk => (tagScan_mem st tag p k hk).2, ?_, ?_⟩
  · rw [tagScan_eq]
    have hp1 : (st.tags.filter (startsWith (tag ++ [124]))).Pairwise
        fun a b => byteLt a b = true := hsorted.filter _
    have hdesc := (List.pairwise_reverse).mpr hp1
    exact List.Pairwise.sublist
      ((List.take_sublist _ _).trans (List.drop_sublist _ _)) hdesc
  · have hisSome : ∀ k ∈ tagScan st tag p,
        (lookup st.db (List.drop (tag.length + 1 + 8) k)).isSome = true := by
      intro k hk
      obtain ⟨pp, hpp, _⟩ := hres k hk
      simp [hpp]
    obtain ⟨rs, h1, h2, h3⟩ := mapM_some_of_isSome _ _ hisSome
    refine ⟨rs, h1, ?_, ?_⟩
    · rw [h2, tagScan_eq, List.length_take]
      exact min_le_left _ _
    · intro it hit
      obtain ⟨k, hk1, hk2⟩ := h3 it hit
      obtain ⟨pp, hpp, s, hs1, hs2⟩ := hres k hk1
      rw [hpp] at hk2
      injection hk2 with hk2
      subst hk2
      exact ⟨s, hs1, hs2⟩

theorem tagsWF_stOne : TagsWellFormed stOne := by
  intro k hk
  have hkeq : k = tagKeyB [120] 5 [97] := by
    simpa [stOne] using hk
  subst hkeq
  exact ⟨[120], 5, [97], itemA, rfl, by decide, rfl, [120], by simp [itemA], by decide⟩

theorem list_by_tag_correct_witness :
    (∀ k ∈ tagScan stOne [120] 0, startsWith ([120] ++ [124]) k = true)
    ∧ ((tagScan stOne [120] 0).Pairwise fun a b => byteLt b a = true)
    ∧ ∃ items, tagPage stOne [120] 0 = some items ∧ items.length ≤ 20
        ∧ ∀ it ∈ items, ∃ s, s ∈ it.sections ∧ trimB 47 s = [120] :=
  list_by_tag_correct stOne [120] 0 (by decide) tagsWF_stOne (by decide)

/-- C7 counterexample: a tag containing the separator byte 0x7C is not
rejected — ingesting an item whose only section path is `a|c` succeeds
and commits a tag-index entry, contradicting the claimed InvalidTag
rejection before any write. -/
theorem claim_tag_rejection_fails :
    ingest emptyState [itemBadTag] = some (stBadTag, 1) ∧ stBadTag.tags ≠ [] := by
  decide

/-- C7 (amended): no tag validation exists — any section path, with or
without the separator byte, is staged and committed verbatim as
`tag ++ 0x7C ++ be64 ++ id`; the call succeeds and the entry lands in
the tag partition. -/
theorem ingest_accepts_separator_tags (st : State) (it : RawItem) (t : Int)
    (s : Bytes) (hpub : it.publish = some t)
    (hnew : (lookup st.db (trimB 47 it.website_url)).isSome = false)
    (hs : s ∈ it.sections) :
    ∃ st2, ingest st [it] = some (st2, 1)
      ∧ tagKeyB (trimB 47 s) t (trimB 47 it.website_url) ∈ st2.tags := by
  have hstage : stageItem st.db it
      = some ((it.sections.map fun s2 =>
          W.wtag (tagKeyB (trimB 47 s2) t (trimB 47 it.website_url)))
        ++ [W.wdb (trimB 47 it.website_url) it,
            W.widx (chronoKey t (trimB 47 it.website_url))]) := by
    simp only [stageItem]
    rw [if_neg (by simp [hnew]), hpub]
  have hbb : buildBatch st.db [it]
      = some ((it.sections.map fun s2 =>
          W.wtag (tagKeyB (trimB 47 s2) t (trimB 47 it.website_url)))
        ++ [W.wdb (trimB 47 it.website_url) it,
            W.widx (chronoKey t (trimB 47 it.website_url))]) := by
    simp only [buildBatch, hstage, List.append_nil]
  have hcnt : countNew st.db [it] = 1 := by
    have hnone : lookup st.db (trimB 47 it.website_url) = none := by
      cases hl : lookup st.db (trimB 47 it.website_url)
      · rfl
      · rw [hl] at hnew; simp at hnew
    unfold countNew
    simp [hnone]
  refine ⟨commit st ((it.sections.map fun s2 =>
      W.wtag (tagKeyB (trimB 47 s2) t (trimB 47 it.website_url)))
    ++ [W.wdb (trimB 47 it.website_url) it,
        W.widx (chronoKey t (trimB 47 it.website_url))]), ?_, ?_⟩
  · unfold ingest
    rw [hbb, Option.map_some', hcnt]
  · exact (commit_tags_mem _ _ _).mpr (Or.inr (List.mem_append.mpr
      (Or.inl (List.mem_map.mpr ⟨s, hs, rfl⟩))))

theorem ingest_accepts_separator_tags_witness :
    ∃ st2, ingest emptyState [itemBadTag] = some (st2, 1)
      ∧ tagKeyB (trimB 47 [97, 124, 99]) 0 (trimB 47 [98]) ∈ st2.tags :=
  ingest_accepts_separator_tags emptyState itemBadTag 0 [97, 124, 99]
    rfl (by decide) (by decide)

/-- C8 counterexample: a malformed publish time does not always abort
the call — when the item's id already sits in the content store, the
dedup gate skips it before the timestamp is ever parsed, and the call
completes with zero inserts. -/
theorem claim_malformed_always_aborts_fails :
    ingest stOne [itemDupBadTs] = some (stOne, 0) := by decide

/-- C8 (amended): a malformed publish time on an item that is not
already present by id aborts the whole ingestion call — no state is
committed, whatever the other items of the call were. -/
theorem ingest_aborts_on_malformed (st : State) (items : List RawItem)
    (it : RawItem) (hit : it ∈ items) (hbad : it.publish = none)
    (hnew : (lookup st.db (trimB 47 it.website_url)).isSome = false) :
    ingest st items = none := by
  have hb : buildBatch st.db items = none := by
    induction items with
    | nil => simp at hit
    | cons a rest ih =>
      simp only [buildBatch]
      rcases List.mem_cons.mp hit with rfl | hm
      · have h1 : stageItem st.db it = none := by
          simp only [stageItem, hbad]
          rw [if_neg (by simp [hnew])]
        rw [h1]
      · cases h1 : stageItem st.db a with
        | none => rfl
        | some w1 =>
          dsimp only
          rw [ih hm]
  unfold ingest
  rw [hb]
  rfl

theorem ingest_aborts_on_malformed_witness :
    ingest emptyState [itemA, itemBadTs] = none :=
  ingest_aborts_on_malformed emptyState [itemA, itemBadTs] itemBadTs
    (by decide) rfl (by decide)

/-- C9 counterexample: a chronological entry whose id has no content
record is silently tolerated by the global read — the page comes back
(empty here) instead of failing with a consistency violation. -/
theorem claim_global_read_fatal_fails :
    list_global stDangle 0 = [] ∧ stDangle.index ≠ [] := by decide

/-- C9 (amended): only the tag-scoped read is fatal on a dangling
entry — when a scanned tag key's sliced id has no content record, the
read panics (returns nothing); the global read instead silently omits
the item. -/
theorem tag_read_fatal_on_dangling (st : State) (tag : Bytes) (p : Nat)
    (k : Bytes) (hk : k ∈ tagScan st tag p)
    (hmiss : lookup st.db (List.drop (tag.length + 1 + 8) k) = none) :
    tagPage st tag p = none :=
  mapM_none_of_mem _ _ k hk hmiss

theorem tag_read_fatal_on_dangling_witness :
    tagPage stDangle [120] 0 = none :=
  tag_read_fatal_on_dangling stDangle [120] 0 (tagKeyB [120] 5 [97])
    (by decide) (by decide)

/-- C10: totality of get_filename_from_url — on every byte string,
including the empty one and strings without slash or question mark,
the function returns (no unwrap can fail) and yields the segment after
the last slash truncated at the first question mark. -/
theorem get_filename_from_url_total (url : Bytes) :
    get_filename_from_url url
      = some (((url.reverse.takeWhile fun b => !(b == 47)).reverse).takeWhile
          fun b => !(b == 63)) := by
  unfold get_filename_from_url
  rw [splitB_getLast, Option.some_bind, splitB_head]

end Whynot
